import Mathlib

/-
Verification of the audit-trail core of clognichain-lite-flake8.py:
a Logger that on append writes one serialized record line to a gzip
Append Log and one row to a sqlite Index Store, and serves tail and
search from the Index Store.  The embedding below translates the
Python source (and the sqlite semantics of the SQL it issues) into
executable Lean definitions.
-/

set_option maxRecDepth 4096

/-
Structured JSON-like payload values (Python dict/list/int/str/bool/None
as produced by json.loads and consumed by json.dumps).  Mutual inductives
are used for the nested lists so that all functions over them are
structural, hence kernel-reducible.  Float payloads are outside the model;
no claim exercises them.
-/
mutual

inductive JValue where
  | jnull : JValue
  | jbool : Bool → JValue
  | jint : Int → JValue
  | jstr : String → JValue
  | jarr : JArr → JValue
  | jobj : JObj → JValue

inductive JArr where
  | nil : JArr
  | cons : JValue → JArr → JArr

inductive JObj where
  | nil : JObj
  | cons : String → JValue → JObj → JObj

end

mutual

def JValue.beq : JValue → JValue → Bool
  | .jnull, .jnull => true
  | .jbool a, .jbool b => a == b
  | .jint a, .jint b => a == b
  | .jstr a, .jstr b => a == b
  | .jarr a, .jarr b => JArr.beq a b
  | .jobj a, .jobj b => JObj.beq a b
  | _, _ => false

def JArr.beq : JArr → JArr → Bool
  | .nil, .nil => true
  | .cons x xs, .cons y ys => JValue.beq x y && JArr.beq xs ys
  | _, _ => false

def JObj.beq : JObj → JObj → Bool
  | .nil, .nil => true
  | .cons k v tl, .cons k2 v2 tl2 =>
      k == k2 && JValue.beq v v2 && JObj.beq tl tl2
  | _, _ => false

end

mutual

theorem jValue_beq_iff : ∀ a b : JValue, JValue.beq a b = true ↔ a = b
  | .jnull, b => by cases b <;> simp [JValue.beq]
  | .jbool a, b => by cases b <;> simp [JValue.beq]
  | .jint a, b => by cases b <;> simp [JValue.beq]
  | .jstr a, b => by cases b <;> simp [JValue.beq]
  | .jarr a, b => by
      cases b <;> simp [JValue.beq]
      exact jArr_beq_iff a _
  | .jobj a, b => by
      cases b <;> simp [JValue.beq]
      exact jObj_beq_iff a _

theorem jArr_beq_iff : ∀ a b : JArr, JArr.beq a b = true ↔ a = b
  | .nil, b => by cases b <;> simp [JArr.beq]
  | .cons x xs, b => by
      cases b <;> simp [JArr.beq]
      exact ⟨fun h => ⟨(jValue_beq_iff x _).1 h.1, (jArr_beq_iff xs _).1 h.2⟩,
        fun h => ⟨(jValue_beq_iff x _).2 h.1, (jArr_beq_iff xs _).2 h.2⟩⟩

theorem jObj_beq_iff : ∀ a b : JObj, JObj.beq a b = true ↔ a = b
  | .nil, b => by cases b <;> simp [JObj.beq]
  | .cons k v tl, b => by
      cases b <;> simp [JObj.beq, jValue_beq_iff v, jObj_beq_iff tl, and_assoc]

end

instance : DecidableEq JValue := fun a b =>
  decidable_of_iff (JValue.beq a b = true) (jValue_beq_iff a b)

instance : DecidableEq JArr := fun a b =>
  decidable_of_iff (JArr.beq a b = true) (jArr_beq_iff a b)

instance : DecidableEq JObj := fun a b =>
  decidable_of_iff (JObj.beq a b = true) (jObj_beq_iff a b)

/-- Lowercase hex digit, as Python json uses in backslash-u escapes. -/
def hexDigit (n : Nat) : Char :=
  if n < 10 then Char.ofNat (48 + n) else Char.ofNat (87 + n)

/-- Four lowercase hex digits. -/
def hex4 (n : Nat) : String :=
  String.mk [hexDigit (n / 4096 % 16), hexDigit (n / 256 % 16),
    hexDigit (n / 16 % 16), hexDigit (n % 16)]

/-- A backslash-u escape sequence as emitted by json.dumps. -/
def uEsc (n : Nat) : String :=
  "\\u" ++ hex4 n

/-- Escapes applied by json.dumps in every mode: backslash, double quote,
and control characters below 0x20 (named escapes for b, t, n, f, r). -/
def escCommon (c : Char) : Option String :=
  if c = '\\' then some "\\\\"
  else if c = '"' then some "\\\""
  else if c = '\n' then some "\\n"
  else if c = '\r' then some "\\r"
  else if c = '\t' then some "\\t"
  else if c = Char.ofNat 8 then some "\\b"
  else if c = Char.ofNat 12 then some "\\f"
  else if c.toNat < 32 then some (uEsc c.toNat)
  else none

/-- One character of a json.dumps string with ensure_ascii=True (the
default): characters outside 0x20..0x7e become backslash-u escapes,
non-BMP characters become surrogate pairs. -/
def escCharAscii (c : Char) : String :=
  match escCommon c with
  | some s => s
  | none =>
      if c.toNat ≤ 126 then String.singleton c
      else if c.toNat ≤ 65535 then uEsc c.toNat
      else
        uEsc (55296 + (c.toNat - 65536) / 1024) ++
          uEsc (56320 + (c.toNat - 65536) % 1024)

/-- One character of a json.dumps string with ensure_ascii=False:
only the common escapes apply, everything from 0x20 up stays literal. -/
def escCharRaw (c : Char) : String :=
  match escCommon c with
  | some s => s
  | none => String.singleton c

/-- A json.dumps string literal, double-quoted, in the given mode. -/
def encStr (ascii : Bool) (s : String) : String :=
  "\"" ++ String.join (s.toList.map (fun c =>
    if ascii then escCharAscii c else escCharRaw c)) ++ "\""

mutual

/-- json.dumps with default separators (comma-space, colon-space) and
insertion-order keys; `ascii` selects ensure_ascii.  Translated from the
two json.dumps calls in Logger.append (source lines 88, 93, 103). -/
def dumps (ascii : Bool) : JValue → String
  | .jnull => "null"
  | .jbool true => "true"
  | .jbool false => "false"
  | .jint i => toString i
  | .jstr s => encStr ascii s
  | .jarr xs => "[" ++ dumpsArr ascii xs ++ "]"
  | .jobj kvs => "\x7b" ++ dumpsObj ascii kvs ++ "\x7d"

/-- Comma-space separated serialization of array elements. -/
def dumpsArr (ascii : Bool) : JArr → String
  | .nil => ""
  | .cons x .nil => dumps ascii x
  | .cons x (.cons y tl) =>
      dumps ascii x ++ ", " ++ dumpsArr ascii (.cons y tl)

/-- Comma-space separated serialization of object members, keys in
insertion order, colon-space after each key. -/
def dumpsObj (ascii : Bool) : JObj → String
  | .nil => ""
  | .cons k v .nil => encStr ascii k ++ ": " ++ dumps ascii v
  | .cons k v (.cons k2 v2 tl) =>
      encStr ascii k ++ ": " ++ dumps ascii v ++ ", " ++
        dumpsObj ascii (.cons k2 v2 tl)

end

/-- UTF-8 encoding of one character, as Python str.encode produces. -/
def utf8Char (c : Char) : List Nat :=
  let n := c.toNat
  if n < 128 then [n]
  else if n < 2048 then [192 + n / 64, 128 + n % 64]
  else if n < 65536 then [224 + n / 4096, 128 + n / 64 % 64, 128 + n % 64]
  else [240 + n / 262144, 128 + n / 4096 % 64, 128 + n / 64 % 64, 128 + n % 64]

/-- UTF-8 byte sequence of a string, as Python str.encode produces. -/
def utf8Bytes (s : String) : List Nat :=
  (s.toList.map utf8Char).flatten

example : dumps true (.jobj (.cons "k" (.jstr "é") .nil)) =
    "\x7b\"k\": \"\\u00e9\"\x7d" := by decide

example : dumps false (.jobj (.cons "k" (.jstr "é") .nil)) =
    "\x7b\"k\": \"é\"\x7d" := by decide

example : dumps false (.jobj (.cons "a" (.jint 1)
    (.cons "b" (.jarr (.cons (.jint 1) (.cons (.jint 2)
      (.cons (.jint 3) .nil)))) .nil))) =
    "\x7b\"a\": 1, \"b\": [1, 2, 3]\x7d" := by decide

/-- Truncation to 32 bits. -/
def w32 (n : Nat) : Nat := n % 4294967296

/-- 32-bit right rotation. -/
def rotr32 (k x : Nat) : Nat := w32 (x / 2 ^ k + x * 2 ^ (32 - k))

/-- The SHA-256 round constants, the cube-root fractions of FIPS 180-4,
written in decimal. -/
def shaK : List Nat :=
  [1116352408, 1899447441, 3049323471, 3921009573, 961987163,
   1508970993, 2453635748, 2870763221, 3624381080, 310598401,
   607225278, 1426881987, 1925078388, 2162078206, 2614888103,
   3248222580, 3835390401, 4022224774, 264347078, 604807628,
   770255983, 1249150122, 1555081692, 1996064986, 2554220882,
   2821834349, 2952996808, 3210313671, 3336571891, 3584528711,
   113926993, 338241895, 666307205, 773529912, 1294757372,
   1396182291, 1695183700, 1986661051, 2177026350, 2456956037,
   2730485921, 2820302411, 3259730800, 3345764771, 3516065817,
   3600352804, 4094571909, 275423344, 430227734, 506948616,
   659060556, 883997877, 958139571, 1322822218, 1537002063,
   1747873779, 1955562222, 2024104815, 2227730452, 2361852424,
   2428436474, 2756734187, 3204031479, 3329325298]

/-- The SHA-256 initial hash value, the square-root fractions of
FIPS 180-4, written in decimal. -/
def shaH0 : List Nat :=
  [1779033703, 3144134277, 1013904242, 2773480762,
   1359893119, 2600822924, 528734635, 1541459225]

/-- Big-endian byte rendering of a number into k bytes. -/
def beBytes : Nat → Nat → List Nat
  | 0, _ => []
  | k + 1, n => beBytes k (n / 256) ++ [n % 256]

/-- SHA-256 padding: 0x80, zeros to 56 mod 64, then the bit length. -/
def shaPad (msg : List Nat) : List Nat :=
  msg ++ 128 :: List.replicate ((119 - msg.length % 64) % 64) 0 ++
    beBytes 8 (8 * msg.length)

/-- Big-endian 32-bit words from a byte list. -/
def beWords : List Nat → List Nat
  | b0 :: b1 :: b2 :: b3 :: rest =>
      (b0 * 16777216 + b1 * 65536 + b2 * 256 + b3) :: beWords rest
  | _ => []

/-- Split into 64-byte blocks (fuel keeps the recursion structural). -/
def chunks64F : Nat → List Nat → List (List Nat)
  | 0, _ => []
  | _, [] => []
  | f + 1, l => l.take 64 :: chunks64F f (l.drop 64)

/-- Split a byte list into 64-byte blocks. -/
def chunks64 (l : List Nat) : List (List Nat) := chunks64F (l.length + 1) l

/-- SHA-256 message-schedule sigma functions and compression functions. -/
def smallSigma0 (x : Nat) : Nat :=
  Nat.xor (Nat.xor (rotr32 7 x) (rotr32 18 x)) (x / 2 ^ 3)

/-- Second small sigma. -/
def smallSigma1 (x : Nat) : Nat :=
  Nat.xor (Nat.xor (rotr32 17 x) (rotr32 19 x)) (x / 2 ^ 10)

/-- First big sigma. -/
def bigSigma0 (x : Nat) : Nat :=
  Nat.xor (Nat.xor (rotr32 2 x) (rotr32 13 x)) (rotr32 22 x)

/-- Second big sigma. -/
def bigSigma1 (x : Nat) : Nat :=
  Nat.xor (Nat.xor (rotr32 6 x) (rotr32 11 x)) (rotr32 25 x)

/-- SHA-256 choose function. -/
def chF (x y z : Nat) : Nat :=
  Nat.xor (Nat.land x y) (Nat.land (4294967295 - x) z)

/-- SHA-256 majority function. -/
def majF (x y z : Nat) : Nat :=
  Nat.xor (Nat.xor (Nat.land x y) (Nat.land x z)) (Nat.land y z)

/-- One message-schedule extension step. -/
def shaExtendStep (ws : List Nat) : List Nat :=
  ws ++ [w32 (smallSigma1 (ws.getD (ws.length - 2) 0) +
    ws.getD (ws.length - 7) 0 +
    smallSigma0 (ws.getD (ws.length - 15) 0) +
    ws.getD (ws.length - 16) 0)]

/-- Extend 16 schedule words to 64. -/
def shaExtend (ws : List Nat) : List Nat :=
  (List.range 48).foldl (fun acc _ => shaExtendStep acc) ws

/-- One SHA-256 compression round on the eight-word working state. -/
def shaRound (st : List Nat) (kw : Nat × Nat) : List Nat :=
  match st with
  | [a, b, c, d, e, f, g, h] =>
      let t1 := w32 (h + bigSigma1 e + chF e f g + kw.1 + kw.2)
      let t2 := w32 (bigSigma0 a + majF a b c)
      [w32 (t1 + t2), a, b, c, w32 (d + t1), e, f, g]
  | other => other

/-- Compress one 64-byte block into the running hash. -/
def shaCompress (h : List Nat) (block : List Nat) : List Nat :=
  let ws := shaExtend (beWords block)
  let fin := (shaK.zip ws).foldl shaRound h
  (h.zip fin).map (fun p => w32 (p.1 + p.2))

/-- SHA-256 of a byte list, as eight 32-bit words. -/
def sha256Words (msg : List Nat) : List Nat :=
  (chunks64 (shaPad msg)).foldl shaCompress shaH0

/-- Eight lowercase hex digits. -/
def hex8 (n : Nat) : String := hex4 (n / 65536) ++ hex4 (n % 65536)

/-- SHA-256 hex digest of a byte list, as hashlib sha256 hexdigest returns. -/
def sha256Hex (msg : List Nat) : String :=
  String.join ((sha256Words msg).map hex8)

example : sha256Hex (utf8Bytes "abc") =
    "ba7816bf8f01cfea414140de5dae2223b00361a396177a9cb410ff61f20015ad" := by
  decide

/-- JSON whitespace accepted by json.loads between tokens. -/
def isJsonWs (c : Char) : Bool :=
  c = ' ' || c = '\t' || c = '\n' || c = '\r'

/-- Drop leading JSON whitespace. -/
def skipWs : List Char → List Char
  | [] => []
  | c :: cs => if isJsonWs c then skipWs cs else c :: cs

/-- Value of one hex digit, either case. -/
def hexVal (c : Char) : Option Nat :=
  if '0' ≤ c ∧ c ≤ '9' then some (c.toNat - 48)
  else if 'a' ≤ c ∧ c ≤ 'f' then some (c.toNat - 87)
  else if 'A' ≤ c ∧ c ≤ 'F' then some (c.toNat - 55)
  else none

/-- Body of a JSON string after the opening quote: returns the decoded
characters and the rest of the input after the closing quote.  Handles
the escapes json.loads accepts, including surrogate-pair backslash-u. -/
def parseStrBody : List Char → Option (List Char × List Char)
  | [] => none
  | '"' :: rest => some ([], rest)
  | '\\' :: 'u' :: h1 :: h2 :: h3 :: h4 :: rest =>
      match hexVal h1, hexVal h2, hexVal h3, hexVal h4 with
      | some a, some b, some c, some d =>
          let n := a * 4096 + b * 256 + c * 16 + d
          if 55296 ≤ n ∧ n ≤ 56319 then
            match rest with
            | '\\' :: 'u' :: g1 :: g2 :: g3 :: g4 :: rest2 =>
                match hexVal g1, hexVal g2, hexVal g3, hexVal g4 with
                | some a2, some b2, some c2, some d2 =>
                    let m := a2 * 4096 + b2 * 256 + c2 * 16 + d2
                    if 56320 ≤ m ∧ m ≤ 57343 then
                      match parseStrBody rest2 with
                      | some (cs, r) =>
                          some (Char.ofNat
                            (65536 + (n - 55296) * 1024 + (m - 56320)) :: cs, r)
                      | none => none
                    else none
                | _, _, _, _ => none
            | _ => none
          else
            match parseStrBody rest with
            | some (cs, r) => some (Char.ofNat n :: cs, r)
            | none => none
      | _, _, _, _ => none
  | '\\' :: e :: rest =>
      match
        (if e = '"' then some '"'
         else if e = '\\' then some '\\'
         else if e = '/' then some '/'
         else if e = 'b' then some (Char.ofNat 8)
         else if e = 'f' then some (Char.ofNat 12)
         else if e = 'n' then some '\n'
         else if e = 'r' then some '\r'
         else if e = 't' then some '\t'
         else none) with
      | some c =>
          match parseStrBody rest with
          | some (cs, r) => some (c :: cs, r)
          | none => none
      | none => none
  | c :: rest =>
      if c.toNat < 32 then none
      else
        match parseStrBody rest with
        | some (cs, r) => some (c :: cs, r)
        | none => none

/-- Consume a run of decimal digits, most significant first. -/
def parseDigits : List Char → Nat → Nat × List Char
  | c :: rest, acc =>
      if '0' ≤ c ∧ c ≤ '9' then parseDigits rest (acc * 10 + (c.toNat - 48))
      else (acc, c :: rest)
  | [], acc => (acc, [])

/-- A JSON integer literal, with the json grammar rules: optional minus,
no leading zeros, and rejecting a following fraction or exponent (float
payloads are outside the model). -/
def parseIntLit : List Char → Option (Int × List Char)
  | '-' :: rest =>
      match parseIntLit rest with
      | some (i, r) => some (-i, r)
      | none => none
  | c :: rest =>
      if '0' ≤ c ∧ c ≤ '9' then
        if c = '0' ∧ (match rest with
          | d :: _ => decide ('0' ≤ d ∧ d ≤ '9')
          | [] => false) = true then none
        else
          let (n, r) := parseDigits (c :: rest) 0
          match r with
          | e :: _ =>
              if e = '.' ∨ e = 'e' ∨ e = 'E' then none else some ((n : Int), r)
          | [] => some ((n : Int), [])
      else none
  | [] => none

mutual

/-- One JSON value with leading whitespace, as the json.loads grammar
reads it; fuel bounds the recursion depth and is structural. -/
def parseVal : Nat → List Char → Option (JValue × List Char)
  | 0, _ => none
  | fuel + 1, s =>
      match skipWs s with
      | '"' :: rest =>
          match parseStrBody rest with
          | some (cs, r) => some (.jstr (String.mk cs), r)
          | none => none
      | '[' :: rest =>
          match skipWs rest with
          | ']' :: r => some (.jarr .nil, r)
          | other => match parseArrElems fuel other with
            | some (xs, r) => some (.jarr xs, r)
            | none => none
      | '\x7b' :: rest =>
          match skipWs rest with
          | '\x7d' :: r => some (.jobj .nil, r)
          | other => match parseObjMembers fuel other with
            | some (kvs, r) => some (.jobj kvs, r)
            | none => none
      | 't' :: 'r' :: 'u' :: 'e' :: rest => some (.jbool true, rest)
      | 'f' :: 'a' :: 'l' :: 's' :: 'e' :: rest => some (.jbool false, rest)
      | 'n' :: 'u' :: 'l' :: 'l' :: rest => some (.jnull, rest)
      | other =>
          match parseIntLit other with
          | some (i, r) => some (.jint i, r)
          | none => none

/-- Comma-separated array elements up to the closing bracket. -/
def parseArrElems : Nat → List Char → Option (JArr × List Char)
  | 0, _ => none
  | fuel + 1, s =>
      match parseVal fuel s with
      | some (v, r) =>
          match skipWs r with
          | ']' :: r2 => some (.cons v .nil, r2)
          | ',' :: r2 =>
              match parseArrElems fuel r2 with
              | some (xs, r3) => some (.cons v xs, r3)
              | none => none
          | _ => none
      | none => none

/-- Comma-separated object members up to the closing brace. -/
def parseObjMembers : Nat → List Char → Option (JObj × List Char)
  | 0, _ => none
  | fuel + 1, s =>
      match skipWs s with
      | '"' :: rest =>
          match parseStrBody rest with
          | some (cs, r) =>
              match skipWs r with
              | ':' :: r2 =>
                  match parseVal fuel r2 with
                  | some (v, r3) =>
                      match skipWs r3 with
                      | '\x7d' :: r4 => some (.cons (String.mk cs) v .nil, r4)
                      | ',' :: r4 =>
                          match parseObjMembers fuel r4 with
                          | some (kvs, r5) => some (.cons (String.mk cs) v kvs, r5)
                          | none => none
                      | _ => none
                  | none => none
              | _ => none
          | none => none
      | _ => none

end

/-- json.loads: parse one JSON document, requiring only whitespace after
it.  Translated from the json.loads calls in Logger.search and
Logger.tail (source lines 126, 148). -/
def parseJson (s : String) : Option JValue :=
  match parseVal (2 * s.length + 2) s.toList with
  | some (v, rest) => if skipWs rest = [] then some v else none
  | none => none

example : parseJson "\x7b\"a\": 1, \"b\": [1, 2, 3]\x7d" =
    some (.jobj (.cons "a" (.jint 1)
      (.cons "b" (.jarr (.cons (.jint 1) (.cons (.jint 2)
        (.cons (.jint 3) .nil)))) .nil))) := by decide

example : parseJson "[true, false, null, -12, \"x\\u00e9\"]" =
    some (.jarr (.cons (.jbool true) (.cons (.jbool false)
      (.cons .jnull (.cons (.jint (-12))
        (.cons (.jstr "xé") .nil)))))) := by decide

example : parseJson "01" = none := by decide

/-- ASCII-only lower-case folding, the folding the sqlite LIKE operator
applies by default. -/
def foldA (c : Char) : Char :=
  if 'A' ≤ c ∧ c ≤ 'Z' then Char.ofNat (c.toNat + 32) else c

/-- The sqlite LIKE matcher on character lists: percent matches any
sequence, underscore matches any single character, and ordinary
characters compare ASCII-case-insensitively.  Fuel keeps the recursion
structural; every call decreases pattern length plus input length. -/
def likeMatchF : Nat → List Char → List Char → Bool
  | 0, _, _ => false
  | _ + 1, [], s => s.isEmpty
  | f + 1, p :: ps, s =>
      if p = '%' then
        likeMatchF f ps s ||
          (match s with
           | [] => false
           | _ :: s2 => likeMatchF f (p :: ps) s2)
      else
        match s with
        | [] => false
        | c :: s2 =>
            if p = '_' then likeMatchF f ps s2
            else (foldA p = foldA c) && likeMatchF f ps s2

/-- The filter Logger.search applies: the sqlite expression
payload LIKE percent-term-percent (source lines 115, 118). -/
def likeContains (term payload : String) : Bool :=
  let pat := '%' :: term.toList ++ ['%']
  likeMatchF (pat.length + payload.toList.length + 1) pat payload.toList

example : likeContains "A" "\x7b\"a\": 1\x7d" = true := by decide
example : likeContains "z" "\x7b\"a\": 1\x7d" = false := by decide
example : likeContains "\"_\"" "\x7b\"a\": 1\x7d" = true := by decide

/-- One row of the sqlite table audit_index
(ts INTEGER, sha TEXT, source TEXT, payload TEXT), source lines 77-82. -/
structure Row where
  ts : Int
  sha : String
  source : String
  payload : String
deriving DecidableEq, Repr

/-- The two stores the Logger owns: the gzip Append Log as the list of
lines written to it, and the sqlite Index Store as the list of rows in
insertion order (sqlite scans a table without an index in rowid order,
which for pure inserts is insertion order). -/
structure LoggerState where
  log : List String
  index : List Row
deriving DecidableEq, Repr

/-- A freshly created store: empty Append Log, empty audit_index table. -/
def emptyState : LoggerState := { log := [], index := [] }

/-- The content hash Logger.append stamps on a record:
hashlib.sha256(json.dumps(payload).encode()).hexdigest() with
json.dumps in its default ensure_ascii=True mode (source line 88). -/
def fingerprint (p : JValue) : String :=
  sha256Hex (utf8Bytes (dumps true p))

/-- The line Logger.append writes to the Append Log:
json.dumps(rec, ensure_ascii=False) plus a newline, where rec is the
dict with keys ts, sha, source, payload in that order (lines 89, 93). -/
def recLine (ts : Int) (sha source : String) (p : JValue) : String :=
  dumps false (.jobj (.cons "ts" (.jint ts)
    (.cons "sha" (.jstr sha)
      (.cons "source" (.jstr source)
        (.cons "payload" p .nil))))) ++ "\n"

/-- The row Logger.append inserts into audit_index:
(ts, sha, source, json.dumps(payload, ensure_ascii=False)),
source lines 97-105. -/
def rowOf (ts : Int) (sha source : String) (p : JValue) : Row :=
  { ts := ts, sha := sha, source := source,
    payload := dumps false p }

/-- Logger.append (source lines 86-106) on a given clock reading:
compute the fingerprint, write the record line to the Append Log, then
insert the equivalent row into the Index Store. -/
def append (ts : Int) (source : String) (p : JValue)
    (st : LoggerState) : LoggerState :=
  let sha := fingerprint p
  { log := st.log ++ [recLine ts sha source p],
    index := st.index ++ [rowOf ts sha source p] }

/-- Logger.append with store failures made explicit: logErr injects a
failure of the gzip write (lines 92-93), idxErr a failure of the sqlite
insert (lines 95-106).  The body mirrors the control flow of append:
the log write runs first; if it raises, nothing later runs; if the
insert raises afterwards, the completed log write is not rolled back.
The result pairs the state the stores are left in with the error the
call raises, if any; errors are opaque values of an arbitrary type. -/
def appendF {ε : Type} (logErr idxErr : Option ε) (ts : Int)
    (source : String) (p : JValue) (st : LoggerState) :
    LoggerState × Option ε :=
  let sha := fingerprint p
  match logErr with
  | some e => (st, some e)
  | none =>
      let st1 : LoggerState :=
        { log := st.log ++ [recLine ts sha source p], index := st.index }
      match idxErr with
      | some e => (st1, some e)
      | none =>
          ({ st1 with index := st.index ++ [rowOf ts sha source p] }, none)

/-- The comparison ORDER BY ts DESC sorts by: a precedes b when the ts
of b is at most the ts of a. -/
def rowGE (a b : Row) : Prop := b.ts ≤ a.ts

instance : DecidableRel rowGE := fun a b =>
  inferInstanceAs (Decidable (b.ts ≤ a.ts))

instance : IsTotal Row rowGE :=
  ⟨fun a b => le_total b.ts a.ts⟩

instance : IsTrans Row rowGE :=
  ⟨fun _ _ _ hab hbc => le_trans hbc hab⟩

/-- The result order of ORDER BY ts DESC on a table scanned in rowid
order: a stable descending sort, so rows with equal ts keep their
insertion order (the order sqlite returns, checked against sqlite). -/
def sortByTsDesc (rows : List Row) : List Row :=
  List.insertionSort rowGE rows

/-- The sqlite LIMIT clause with a bound parameter: a negative limit
means no limit, otherwise at most that many rows. -/
def sqlLimit (n : Int) (xs : List Row) : List Row :=
  if n < 0 then xs else xs.take n.toNat

/-- The rows the query in Logger.tail (source lines 134-141) returns:
SELECT ts, sha, source, payload FROM audit_index ORDER BY ts DESC
LIMIT n. -/
def tailRows (n : Int) (st : LoggerState) : List Row :=
  sqlLimit n (sortByTsDesc st.index)

/-- The rows the query in Logger.search (source lines 111-119) returns:
SELECT ... WHERE payload LIKE percent-term-percent ORDER BY ts DESC
LIMIT limit. -/
def searchRows (term : String) (limit : Int) (st : LoggerState) : List Row :=
  sqlLimit limit
    (sortByTsDesc (st.index.filter (fun r => likeContains term r.payload)))

/-- One result dict of Logger.search or Logger.tail: the row fields with
payload run through json.loads (source lines 121-129, 143-151). -/
structure OutRec where
  ts : Int
  sha : String
  source : String
  payload : Option JValue
deriving DecidableEq

/-- The dict construction in the list comprehensions of Logger.search
and Logger.tail.  A payload text that json.loads would reject comes out
as none here, where the source raises JSONDecodeError instead; append
only ever persists json.dumps output, so on program-produced states the
none path is unreachable and the two agree. -/
def decodeRow (r : Row) : OutRec :=
  { ts := r.ts, sha := r.sha, source := r.source,
    payload := parseJson r.payload }

/-- Logger.search (source lines 108-129). -/
def search (term : String) (limit : Int) (st : LoggerState) : List OutRec :=
  (searchRows term limit st).map decodeRow

/-- Logger.tail (source lines 131-151). -/
def tail (n : Int) (st : LoggerState) : List OutRec :=
  (tailRows n st).map decodeRow

/-- The stats surface: SELECT COUNT(*) FROM audit_index
(source lines 195-200). -/
def count (st : LoggerState) : Nat := st.index.length

/-- States reachable from a fresh store by successful append calls,
with arbitrary clock readings, sources and payloads. -/
inductive Reachable : LoggerState → Prop where
  | empty : Reachable emptyState
  | step (ts : Int) (src : String) (p : JValue) (st : LoggerState) :
      Reachable st → Reachable (append ts src p st)

example :
    tailRows 2 { log := [], index :=
      [⟨5, "h1", "s1", "x"⟩, ⟨5, "h2", "s2", "y"⟩, ⟨7, "h3", "s3", "z"⟩] } =
    [⟨7, "h3", "s3", "z"⟩, ⟨5, "h1", "s1", "x"⟩] := by decide

example :
    searchRows "A" 10 { log := [], index := [⟨5, "h1", "s1", "x a x"⟩] } =
    [⟨5, "h1", "s1", "x a x"⟩] := by decide

/-- Unfolding lemma for the Append Log side of append. -/
@[simp] theorem append_log (ts : Int) (src : String) (p : JValue)
    (st : LoggerState) :
    (append ts src p st).log = st.log ++ [recLine ts (fingerprint p) src p] :=
  rfl

/-- Unfolding lemma for the Index Store side of append. -/
@[simp] theorem append_index (ts : Int) (src : String) (p : JValue)
    (st : LoggerState) :
    (append ts src p st).index =
      st.index ++ [rowOf ts (fingerprint p) src p] :=
  rfl

/-- A whole run of append calls, oldest first. -/
def appendAll (calls : List (Int × String × JValue))
    (st : LoggerState) : LoggerState :=
  calls.foldl (fun s c => append c.1 c.2.1 c.2.2 s) st

/-- C7: the row count of the Index Store equals the number of successful
append calls performed since the store was created: count of a fresh
store is 0, each append adds exactly one row, and after any sequence of
k successful appends the count has grown by exactly k. -/
theorem count_eq_successful_appends :
    count emptyState = 0 ∧
    (∀ (ts : Int) (src : String) (p : JValue) (st : LoggerState),
      count (append ts src p st) = count st + 1) ∧
    (∀ (calls : List (Int × String × JValue)) (st : LoggerState),
      count (appendAll calls st) = count st + calls.length) := by
  refine ⟨rfl, fun ts src p st => ?_, fun calls => ?_⟩
  · simp [count, append]
  · induction calls with
    | nil => intro st; simp [appendAll, count]
    | cons c cs ih =>
        intro st
        have h2 := ih (append c.1 c.2.1 c.2.2 st)
        simp [appendAll] at h2 ⊢
        rw [h2]
        simp [count, append]
        omega

/-- C4: the digest is deterministic, and the fingerprint is a pure
function of the canonical serialization of the payload: payloads with
byte-identical json.dumps serializations (in particular equal structured
values) get identical fingerprints. -/
theorem fingerprint_deterministic :
    (∀ p : JValue, fingerprint p = fingerprint p) ∧
    (∀ p q : JValue, dumps true p = dumps true q →
      fingerprint p = fingerprint q) := by
  refine ⟨fun p => rfl, fun p q h => ?_⟩
  unfold fingerprint
  rw [h]

def payloadAccent : JValue := .jobj (.cons "k" (.jstr "é") .nil)

/-- C4 witness: the congruence hypothesis discharged at a concrete
payload. -/
theorem fingerprint_deterministic_witness :
    dumps true payloadAccent = dumps true payloadAccent ∧
    fingerprint payloadAccent = fingerprint payloadAccent :=
  ⟨rfl, fingerprint_deterministic.2 payloadAccent payloadAccent rfl⟩

/-- C9: append hashes the ensure_ascii=True serialization of the payload
to produce the fingerprint but persists the ensure_ascii=False
serialization in the Index Store, and for a payload with a non-ASCII
character the hashed byte sequence differs from the bytes of the
persisted payload text. -/
theorem hash_input_differs_from_persisted :
    (∀ (ts : Int) (src : String) (p : JValue) (st : LoggerState),
      (append ts src p st).index = st.index ++
        [{ ts := ts, sha := sha256Hex (utf8Bytes (dumps true p)),
           source := src, payload := dumps false p }]) ∧
    utf8Bytes (dumps true payloadAccent) ≠
      utf8Bytes (dumps false payloadAccent) := by
  refine ⟨fun ts src p st => rfl, by decide⟩

/-- C6: appendF makes the dual write of append explicit.  A failed
Append Log write leaves both stores untouched and surfaces exactly the
error the store raised; a failed Index Store insert happens after the
Append Log write, which is not rolled back, so the log keeps an entry
with no matching index row while the error still surfaces unchanged; a
fully successful call is exactly append. -/
theorem append_dual_write_no_rollback {ε : Type} (e : ε)
    (idxErr : Option ε) (ts : Int) (src : String) (p : JValue)
    (st : LoggerState) :
    appendF (some e) idxErr ts src p st = (st, some e) ∧
    appendF none (some e) ts src p st =
      ({ log := st.log ++ [recLine ts (fingerprint p) src p],
         index := st.index }, some e) ∧
    appendF (none : Option ε) none ts src p st = (append ts src p st, none) :=
  ⟨rfl, rfl, rfl⟩

/-- C10: if the Append Log write inside append raises, the error
propagates and the Index Store is left unchanged (as is the log). -/
theorem log_failure_leaves_index_unchanged {ε : Type} (e : ε)
    (idxErr : Option ε) (ts : Int) (src : String) (p : JValue)
    (st : LoggerState) :
    (appendF (some e) idxErr ts src p st).1.index = st.index ∧
    (appendF (some e) idxErr ts src p st).2 = some e :=
  ⟨rfl, rfl⟩

def stOne : LoggerState :=
  { log := ["line1"], index := [⟨5, "h", "s", "1"⟩] }

/-- C5 counterexample: on a one-row store (whose persisted payload text
is the valid JSON document 1), a negative argument makes the query in
tail return every row rather than an empty sequence, because a negative
sqlite LIMIT means no limit; tail then decodes and returns that row. -/
theorem tail_negative_counterexample :
    tailRows (-1) stOne = [⟨5, "h", "s", "1"⟩] ∧
    tail (-1) stOne = [⟨5, "h", "s", some (.jint 1)⟩] ∧
    tailRows (-1) stOne ≠ [] := by
  exact ⟨by decide, by decide, by decide⟩

/-- C5 amended: tail 0 returns an empty sequence, but for negative n
the query in tail returns all rows of the store in query order, since
the sqlite LIMIT clause treats a negative bound as no limit. -/
theorem tail_nonpos_amended (st : LoggerState) (n : Int) :
    (n = 0 → tailRows n st = []) ∧
    (n < 0 → tailRows n st = sortByTsDesc st.index) := by
  constructor
  · intro h
    subst h
    simp [tailRows, sqlLimit]
  · intro h
    simp [tailRows, sqlLimit, if_pos h]

/-- C5 witness: both amended hypotheses discharged on a concrete store. -/
theorem tail_nonpos_amended_witness :
    ((0 : Int) = 0 ∧ tailRows 0 stOne = []) ∧
    ((-1 : Int) < 0 ∧ tailRows (-1) stOne = sortByTsDesc stOne.index) :=
  ⟨⟨rfl, (tail_nonpos_amended stOne 0).1 rfl⟩,
    ⟨by decide, (tail_nonpos_amended stOne (-1)).2 (by decide)⟩⟩

/-- Log/index consistency: the two stores have the same number of
entries, and the entry at each position of the Append Log is the record
line of some payload whose equivalent row — identical timestamp,
fingerprint and source, and the serialization of the same payload —
sits at the same position of the Index Store. -/
def consistent (st : LoggerState) : Prop :=
  st.log.length = st.index.length ∧
  ∀ (i : Nat) (line : String), st.log[i]? = some line →
    ∃ (ts : Int) (src : String) (p : JValue),
      line = recLine ts (fingerprint p) src p ∧
      st.index[i]? = some (rowOf ts (fingerprint p) src p)

/-- C1: after every successful append call — that is, in every state
reachable from a fresh store by successful appends — every record
written to the Append Log has a corresponding row at the same position
of the Index Store with identical timestamp, fingerprint and source,
and with the serialized form of the same payload. -/
theorem log_index_consistent (st : LoggerState) (h : Reachable st) :
    consistent st := by
  induction h with
  | empty =>
      exact ⟨rfl, by intro i line hl; simp [emptyState] at hl⟩
  | step ts src p st2 _ ih =>
      obtain ⟨hlen, hcorr⟩ := ih
      constructor
      · simp [hlen]
      · intro i line hl
        simp only [append_log] at hl
        rcases lt_trichotomy i st2.log.length with hi | hi | hi
        · rw [List.getElem?_append_left hi] at hl
          obtain ⟨ts2, src2, p2, h1, h2⟩ := hcorr i line hl
          refine ⟨ts2, src2, p2, h1, ?_⟩
          rw [append_index, List.getElem?_append_left (hlen ▸ hi)]
          exact h2
        · subst hi
          rw [List.getElem?_concat_length] at hl
          refine ⟨ts, src, p, (Option.some_injective _ hl).symm, ?_⟩
          rw [append_index, hlen, List.getElem?_concat_length]
        · rw [List.getElem?_eq_none (by simp; omega)] at hl
          exact absurd hl (by simp)

/-- C1 witness: the invariant instantiated on the concrete reachable
state built by one append. -/
theorem log_index_consistent_witness :
    consistent (append 5 "src" payloadAccent emptyState) :=
  log_index_consistent _
    (Reachable.step 5 "src" payloadAccent emptyState Reachable.empty)

/-- Stability of orderedInsert for the descending-ts order, expressed
through filters: inserting a row whose ts is t puts it in front of the
rows with ts equal to t (every row it walks past has a strictly larger
ts), and inserting a row with a different ts leaves the t-rows as they
were. -/
theorem filter_orderedInsert_ts (a : Row) (t : Int) :
    ∀ l : List Row,
      (List.orderedInsert rowGE a l).filter (fun r => r.ts == t) =
        if a.ts = t then a :: l.filter (fun r => r.ts == t)
        else l.filter (fun r => r.ts == t) := by
  intro l
  induction l with
  | nil => by_cases h : a.ts = t <;> simp [List.orderedInsert, h]
  | cons b l2 ih =>
      by_cases hab : rowGE a b
      · simp only [List.orderedInsert, if_pos hab]
        by_cases h : a.ts = t <;> simp [List.filter_cons, h]
      · have hab2 : ¬ b.ts ≤ a.ts := hab
        have hlt : a.ts < b.ts := lt_of_not_le hab2
        simp only [List.orderedInsert, if_neg hab, List.filter_cons]
        by_cases hb : b.ts = t
        · have hat : ¬ a.ts = t := by omega
          simp [hb, ih, hat]
        · simp [hb, ih]

/-- Stability of the descending-ts sort, expressed through filters:
rows with any fixed timestamp appear in the sorted output in exactly
their original (insertion) order. -/
theorem filter_sortByTsDesc (t : Int) :
    ∀ l : List Row,
      (sortByTsDesc l).filter (fun r => r.ts == t) =
        l.filter (fun r => r.ts == t) := by
  intro l
  induction l with
  | nil => rfl
  | cons b l2 ih =>
      simp only [sortByTsDesc, List.insertionSort] at ih ⊢
      rw [filter_orderedInsert_ts]
      by_cases h : b.ts = t
      · rw [if_pos h, ih]
        simp [List.filter_cons, h]
      · rw [if_neg h, ih]
        simp [List.filter_cons, h]

/-- The descending sort is a permutation, so it preserves length. -/
theorem length_sortByTsDesc (l : List Row) :
    (sortByTsDesc l).length = l.length :=
  (List.perm_insertionSort rowGE l).length_eq

def rTie1 : Row := ⟨5, "h1", "s1", "x"⟩
def rTie2 : Row := ⟨5, "h2", "s2", "y"⟩

def stTie : LoggerState := { log := ["l1", "l2"], index := [rTie1, rTie2] }

/-- C3 counterexample: on a store whose two rows share a timestamp,
tail 2 returns the earlier-inserted row first, not the most recently
inserted one: the sqlite scan-plus-sort keeps insertion order among
equal timestamps, oldest insertion first. -/
theorem tail_tie_counterexample :
    stTie.index = [rTie1, rTie2] ∧ rTie1.ts = rTie2.ts ∧ rTie1 ≠ rTie2 ∧
    tailRows 2 stTie = [rTie1, rTie2] ∧
    tailRows 2 stTie ≠ [rTie2, rTie1] := by
  decide

/-- C3 amended: for n > 0, tail n returns exactly min n totalRecords
rows, sorted by timestamp descending, and ties among equal timestamps
come back in insertion order with the EARLIEST-inserted row first: the
result is the n-prefix of the stable descending sort of the table, and
that sort leaves the rows of each fixed timestamp in their original
insertion order.  tail itself returns these rows decoded. -/
theorem tail_sorted_amended (n : Int) (st : LoggerState) (h : 0 < n) :
    (tailRows n st).length = min n.toNat st.index.length ∧
    List.Sorted rowGE (tailRows n st) ∧
    tailRows n st = (sortByTsDesc st.index).take n.toNat ∧
    (∀ t : Int, (sortByTsDesc st.index).filter (fun r => r.ts == t) =
      st.index.filter (fun r => r.ts == t)) ∧
    tail n st = (tailRows n st).map decodeRow := by
  have hnn : ¬ n < 0 := by omega
  have htake : tailRows n st = (sortByTsDesc st.index).take n.toNat := by
    simp [tailRows, sqlLimit, hnn]
  refine ⟨?_, ?_, htake, fun t => filter_sortByTsDesc t st.index, rfl⟩
  · rw [htake, List.length_take, length_sortByTsDesc]
  · rw [htake]
    exact ((List.sorted_insertionSort rowGE st.index).sublist
      (List.take_sublist _ _))

/-- C3 witness: the amended statement instantiated at n = 2 on the
concrete two-row store with a timestamp tie. -/
theorem tail_sorted_amended_witness :
    (tailRows 2 stTie).length = min (2 : Int).toNat stTie.index.length ∧
    List.Sorted rowGE (tailRows 2 stTie) ∧
    tailRows 2 stTie = (sortByTsDesc stTie.index).take (2 : Int).toNat ∧
    (∀ t : Int, (sortByTsDesc stTie.index).filter (fun r => r.ts == t) =
      stTie.index.filter (fun r => r.ts == t)) ∧
    tail 2 stTie = (tailRows 2 stTie).map decodeRow :=
  tail_sorted_amended 2 stTie (by decide)

/-- likeMatchF applied with the canonical sufficient fuel. -/
def likeMatch (ps s : List Char) : Bool :=
  likeMatchF (ps.length + s.length + 1) ps s

/-- The fuel argument of likeMatchF is irrelevant once it exceeds the
combined length of pattern and input: every recursive call shrinks that
combined length. -/
theorem likeMatchF_fuel_eq :
    ∀ (k f g : Nat) (ps s : List Char),
      ps.length + s.length ≤ k → k < f → k < g →
      likeMatchF f ps s = likeMatchF g ps s := by
  intro k
  induction k with
  | zero =>
      intro f g ps s hlen hf hg
      obtain ⟨f2, rfl⟩ : ∃ x, f = x + 1 := ⟨f - 1, by omega⟩
      obtain ⟨g2, rfl⟩ : ∃ x, g = x + 1 := ⟨g - 1, by omega⟩
      have hps : ps = [] := List.length_eq_zero.1 (by omega)
      subst hps
      simp [likeMatchF]
  | succ k ih =>
      intro f g ps s hlen hf hg
      obtain ⟨f2, rfl⟩ : ∃ x, f = x + 1 := ⟨f - 1, by omega⟩
      obtain ⟨g2, rfl⟩ : ∃ x, g = x + 1 := ⟨g - 1, by omega⟩
      cases ps with
      | nil => simp [likeMatchF]
      | cons p ps =>
          simp only [List.length_cons] at hlen
          by_cases hp : p = '%'
          · subst hp
            cases s with
            | nil =>
                simp only [likeMatchF, eq_self_iff_true, if_true]
                rw [ih f2 g2 ps [] (by simp; omega) (by omega) (by omega)]
            | cons c s2 =>
                simp only [List.length_cons] at hlen
                simp only [likeMatchF, eq_self_iff_true, if_true]
                rw [ih f2 g2 ps (c :: s2)
                      (by simp only [List.length_cons]; omega) (by omega)
                      (by omega),
                  ih f2 g2 ('%' :: ps) s2
                    (by simp only [List.length_cons]; omega) (by omega)
                    (by omega)]
          · cases s with
            | nil => simp [likeMatchF, hp]
            | cons c s2 =>
                simp only [List.length_cons] at hlen
                by_cases hu : p = '_'
                · simp only [likeMatchF, if_neg hp, if_pos hu]
                  exact ih f2 g2 ps s2 (by omega) (by omega) (by omega)
                · simp only [likeMatchF, if_neg hp, if_neg hu]
                  rw [ih f2 g2 ps s2 (by omega) (by omega) (by omega)]

/-- Any sufficient fuel computes likeMatch. -/
theorem likeMatch_eq_likeMatchF (f : Nat) (ps s : List Char)
    (h : ps.length + s.length < f) : likeMatch ps s = likeMatchF f ps s :=
  likeMatchF_fuel_eq (ps.length + s.length) _ f ps s le_rfl (by omega) h

/-- Unfolding: the empty pattern matches exactly the empty input. -/
theorem likeMatch_nil (s : List Char) : likeMatch [] s = s.isEmpty := rfl

/-- Unfolding: a percent against the empty input just drops the
percent. -/
theorem likeMatch_pct_nil (ps : List Char) :
    likeMatch ('%' :: ps) [] = likeMatch ps [] := by
  have h : likeMatch ('%' :: ps) [] =
      likeMatchF (ps.length + List.length ([] : List Char) + 1 + 1)
        ('%' :: ps) [] := by
    apply likeMatch_eq_likeMatchF
    simp
  rw [h]
  simp only [likeMatchF, eq_self_iff_true, if_true]
  rw [Bool.or_false]
  rfl

/-- Unfolding: a percent against a nonempty input either matches the
rest of the pattern here or swallows one character. -/
theorem likeMatch_pct_cons (ps : List Char) (c : Char) (s : List Char) :
    likeMatch ('%' :: ps) (c :: s) =
      (likeMatch ps (c :: s) || likeMatch ('%' :: ps) s) := by
  have h : likeMatch ('%' :: ps) (c :: s) =
      likeMatchF (ps.length + (c :: s).length + 1 + 1) ('%' :: ps) (c :: s) := by
    apply likeMatch_eq_likeMatchF
    simp only [List.length_cons]
    omega
  rw [h]
  simp only [likeMatchF, eq_self_iff_true, if_true]
  congr 1
  exact (likeMatch_eq_likeMatchF (ps.length + (c :: s).length + 1)
    ('%' :: ps) s (by simp only [List.length_cons]; omega)).symm

/-- Unfolding: a non-percent pattern head never matches the empty
input. -/
theorem likeMatch_chr_nil (p : Char) (hp : p ≠ '%') (ps : List Char) :
    likeMatch (p :: ps) [] = false := by
  have h : likeMatch (p :: ps) [] =
      likeMatchF (ps.length + 1 + 1) (p :: ps) [] := by
    apply likeMatch_eq_likeMatchF
    simp only [List.length_cons, List.length_nil]
    omega
  rw [h]
  simp [likeMatchF, hp]

/-- Unfolding: an ordinary pattern character consumes one input
character, compared after ASCII case folding. -/
theorem likeMatch_chr_cons (p : Char) (hp : p ≠ '%') (hu : p ≠ '_')
    (ps : List Char) (c : Char) (s : List Char) :
    likeMatch (p :: ps) (c :: s) =
      ((foldA p = foldA c) && likeMatch ps s) := by
  have h : likeMatch (p :: ps) (c :: s) =
      likeMatchF (ps.length + s.length + 2 + 1) (p :: ps) (c :: s) := by
    apply likeMatch_eq_likeMatchF
    simp only [List.length_cons]
    omega
  rw [h]
  simp only [likeMatchF, if_neg hp, if_neg hu]
  congr 1
  exact (likeMatch_eq_likeMatchF (ps.length + s.length + 2)
    ps s (by omega)).symm

/-- Literal list-starts-with test. -/
def startsWithL : List Char → List Char → Bool
  | [], _ => true
  | _ :: _, [] => false
  | p :: ps, c :: cs => p == c && startsWithL ps cs

/-- Literal contiguous-sublist test. -/
def hasInfixL (pat : List Char) : List Char → Bool
  | [] => startsWithL pat []
  | c :: cs => startsWithL pat (c :: cs) || hasInfixL pat cs

/-- Case-sensitive substring test on strings, the reading of contains
used by the claim about search. -/
def strContains (s term : String) : Bool :=
  hasInfixL term.toList s.toList

/-- ASCII-case-insensitive substring test on strings: what the sqlite
expression payload LIKE percent-term-percent computes for a term free
of wildcards. -/
def ciContains (s term : String) : Bool :=
  hasInfixL (term.toList.map foldA) (s.toList.map foldA)

/-- A term with neither percent nor underscore, so that every character
of the LIKE pattern built from it matches literally. -/
def noWildcards (term : String) : Bool :=
  term.toList.all (fun c => !(c == '%' || c == '_'))

/-- startsWithL decides the there-is-a-suffix decomposition. -/
theorem startsWithL_iff (ps : List Char) :
    ∀ s, startsWithL ps s = true ↔ ∃ t, s = ps ++ t := by
  induction ps with
  | nil => intro s; simp [startsWithL]
  | cons p ps ih =>
      intro s
      cases s with
      | nil => simp [startsWithL]
      | cons c cs =>
          simp only [startsWithL, Bool.and_eq_true, beq_iff_eq, ih,
            List.cons_append, List.cons.injEq]
          constructor
          · rintro ⟨hpc, t, ht⟩
            exact ⟨t, hpc.symm, ht⟩
          · rintro ⟨t, hcp, ht⟩
            exact ⟨hcp.symm, t, ht⟩

/-- hasInfixL decides the contiguous-sublist decomposition. -/
theorem hasInfixL_iff (pat : List Char) :
    ∀ s, hasInfixL pat s = true ↔ ∃ u t, s = u ++ pat ++ t := by
  intro s
  induction s with
  | nil =>
      simp only [hasInfixL, startsWithL_iff]
      constructor
      · rintro ⟨t, ht⟩
        exact ⟨[], t, by simpa using ht⟩
      · rintro ⟨u, t, ht⟩
        have h1 : (u ++ pat) ++ t = [] := ht.symm
        rcases List.append_eq_nil.1 h1 with ⟨h2, ht2⟩
        rcases List.append_eq_nil.1 h2 with ⟨hu, hp⟩
        exact ⟨t, by simp [hp, ht2]⟩
  | cons c cs ih =>
      simp only [hasInfixL, Bool.or_eq_true, startsWithL_iff, ih]
      constructor
      · rintro (⟨t, ht⟩ | ⟨u, t, ht⟩)
        · exact ⟨[], t, by simpa using ht⟩
        · exact ⟨c :: u, t, by simp [ht]⟩
      · rintro ⟨u, t, ht⟩
        cases u with
        | nil => exact Or.inl ⟨t, by simpa using ht⟩
        | cons x u2 =>
            have h2 : c :: cs = x :: (u2 ++ pat ++ t) := by simpa using ht
            injection h2 with h3 h4
            exact Or.inr ⟨u2, t, h4⟩

/-- A wildcard-free pattern matches exactly the inputs equal to it after
ASCII case folding. -/
theorem likeMatch_lit (ps : List Char)
    (hps : ∀ c ∈ ps, c ≠ '%' ∧ c ≠ '_') :
    ∀ s, likeMatch ps s = true ↔ ps.map foldA = s.map foldA := by
  induction ps with
  | nil =>
      intro s
      cases s with
      | nil => simp [likeMatch_nil]
      | cons c cs => simp [likeMatch_nil]
  | cons p ps ih =>
      intro s
      have hp := hps p (by simp)
      have hps2 : ∀ c ∈ ps, c ≠ '%' ∧ c ≠ '_' :=
        fun c hc => hps c (by simp [hc])
      cases s with
      | nil => simp [likeMatch_chr_nil p hp.1]
      | cons c cs =>
          rw [likeMatch_chr_cons p hp.1 hp.2]
          simp [ih hps2 cs]

/-- A wildcard-free pattern followed by a single percent matches exactly
the inputs that start with it after ASCII case folding. -/
theorem likeMatch_lit_pct (ps : List Char)
    (hps : ∀ c ∈ ps, c ≠ '%' ∧ c ≠ '_') :
    ∀ s, likeMatch (ps ++ ['%']) s = true ↔
      ∃ t, s.map foldA = ps.map foldA ++ t := by
  induction ps with
  | nil =>
      have hall : ∀ s : List Char, likeMatch ['%'] s = true := by
        intro s
        induction s with
        | nil => rw [likeMatch_pct_nil]; simp [likeMatch_nil]
        | cons c cs ihs => rw [likeMatch_pct_cons]; simp [ihs]
      intro s
      simp [hall s]
  | cons p ps ih =>
      intro s
      have hp := hps p (by simp)
      have hps2 : ∀ c ∈ ps, c ≠ '%' ∧ c ≠ '_' :=
        fun c hc => hps c (by simp [hc])
      cases s with
      | nil =>
          rw [List.cons_append, likeMatch_chr_nil p hp.1]
          simp
      | cons c cs =>
          rw [List.cons_append, likeMatch_chr_cons p hp.1 hp.2]
          simp only [Bool.and_eq_true, decide_eq_true_eq, ih hps2 cs,
            List.map_cons, List.cons_append, List.cons.injEq]
          constructor
          · rintro ⟨hpc, t, ht⟩
            exact ⟨t, hpc.symm, ht⟩
          · rintro ⟨t, hcp, ht⟩
            exact ⟨hcp.symm, t, ht⟩

/-- A leading percent matches exactly when the rest of the pattern
matches some suffix of the input. -/
theorem likeMatch_lead_pct (qs : List Char) :
    ∀ s, likeMatch ('%' :: qs) s = true ↔
      ∃ u v, s = u ++ v ∧ likeMatch qs v = true := by
  intro s
  induction s with
  | nil =>
      rw [likeMatch_pct_nil]
      constructor
      · intro h
        exact ⟨[], [], rfl, h⟩
      · rintro ⟨u, v, huv, hv⟩
        rcases List.append_eq_nil.1 huv.symm with ⟨hu, hv2⟩
        rw [← hv2]
        exact hv
  | cons c cs ih =>
      rw [likeMatch_pct_cons]
      simp only [Bool.or_eq_true, ih]
      constructor
      · rintro (h | ⟨u, v, huv, hv⟩)
        · exact ⟨[], c :: cs, rfl, h⟩
        · exact ⟨c :: u, v, by simp [huv], hv⟩
      · rintro ⟨u, v, huv, hv⟩
        cases u with
        | nil =>
            left
            have : v = c :: cs := by simpa using huv.symm
            rw [← this]
            exact hv
        | cons x u2 =>
            right
            have h2 : c :: cs = x :: (u2 ++ v) := by simpa using huv
            injection h2 with h3 h4
            exact ⟨u2, v, h4, hv⟩

/-- For a wildcard-free term, the sqlite filter payload LIKE
percent-term-percent is exactly the ASCII-case-insensitive substring
test. -/
theorem likeContains_eq_ciContains (term : String)
    (hw : noWildcards term = true) (s : String) :
    likeContains term s = ciContains s term := by
  have hterm : ∀ c ∈ term.toList, c ≠ '%' ∧ c ≠ '_' := by
    intro c hc
    have := List.all_eq_true.1 hw c hc
    simp at this
    exact this
  have hiff : likeContains term s = true ↔ ciContains s term = true := by
    show likeMatch ('%' :: (term.toList ++ ['%'])) s.toList = true ↔ _
    rw [likeMatch_lead_pct]
    unfold ciContains
    rw [hasInfixL_iff]
    constructor
    · rintro ⟨u, v, huv, hv⟩
      obtain ⟨t, ht⟩ := (likeMatch_lit_pct term.toList hterm v).1 hv
      refine ⟨u.map foldA, t, ?_⟩
      rw [huv, List.map_append, ht, List.append_assoc]
    · rintro ⟨x, y, hxy⟩
      refine ⟨s.toList.take x.length, s.toList.drop x.length, ?_, ?_⟩
      · exact (List.take_append_drop _ _).symm
      · apply (likeMatch_lit_pct term.toList hterm _).2
        refine ⟨y, ?_⟩
        have hdrop : (s.toList.map foldA).drop x.length =
            term.toList.map foldA ++ y := by
          rw [hxy]
          rw [List.append_assoc]
          exact List.drop_left x (term.toList.map foldA ++ y)
        rw [List.map_drop]
        exact hdrop
  cases h1 : likeContains term s with
  | true => exact ((hiff.1 h1).symm ▸ rfl)
  | false =>
      cases h2 : ciContains s term with
      | true => exact absurd (hiff.2 h2) (by simp [h1])
      | false => rfl

def stCase : LoggerState :=
  { log := ["line"], index := [⟨5, "h", "s", "x a x"⟩] }

/-- C2 counterexample: the sqlite LIKE filter is ASCII-case-insensitive,
so on a non-empty store in which no payload contains the term "A" as a
case-sensitive substring, search still returns a row (one whose payload
contains a lower-case a). -/
theorem search_case_counterexample :
    stCase.index ≠ [] ∧
    stCase.index.all (fun r => !(strContains r.payload "A")) = true ∧
    searchRows "A" 10 stCase = [⟨5, "h", "s", "x a x"⟩] := by
  decide

/-- C2 amended: for limit at least 0, search returns only rows whose
payload matches the sqlite pattern percent-term-percent (wildcards in
the term act as wildcards), at most limit rows, ordered by timestamp
descending; it returns the empty sequence when no row matches; and for
a wildcard-free term the LIKE filter is exactly the
ASCII-case-insensitive (not case-sensitive) substring test. -/
theorem search_like_amended (st : LoggerState) (term : String)
    (limit : Int) (hl : 0 ≤ limit) :
    (∀ r ∈ searchRows term limit st, likeContains term r.payload = true) ∧
    (searchRows term limit st).length ≤ limit.toNat ∧
    List.Sorted rowGE (searchRows term limit st) ∧
    ((∀ r ∈ st.index, likeContains term r.payload = false) →
      searchRows term limit st = []) ∧
    (noWildcards term = true →
      ∀ s : String, likeContains term s = ciContains s term) ∧
    search term limit st = (searchRows term limit st).map decodeRow := by
  have hnn : ¬ limit < 0 := not_lt.2 hl
  have hsr : searchRows term limit st =
      (sortByTsDesc (st.index.filter
        (fun r => likeContains term r.payload))).take limit.toNat := by
    simp [searchRows, sqlLimit, hnn]
  refine ⟨?_, ?_, ?_, ?_, fun hw s => likeContains_eq_ciContains term hw s, rfl⟩
  · intro r hr
    rw [hsr] at hr
    have hr2 := List.take_subset _ _ hr
    have hr3 : r ∈ st.index.filter (fun r => likeContains term r.payload) :=
      ((List.perm_insertionSort rowGE _).mem_iff).1 hr2
    exact (List.mem_filter.1 hr3).2
  · rw [hsr]
    exact List.length_take_le _ _
  · rw [hsr]
    exact ((List.sorted_insertionSort rowGE _).sublist (List.take_sublist _ _))
  · intro hall
    have hfil : st.index.filter (fun r => likeContains term r.payload) = [] := by
      rw [List.filter_eq_nil_iff]
      intro r hr
      simp [hall r hr]
    rw [hsr, hfil]
    simp [sortByTsDesc]

/-- C2 witness: the amended statement instantiated on the concrete
store and term of the counterexample, with the limit hypothesis
discharged. -/
theorem search_like_amended_witness :
    (0 : Int) ≤ 10 ∧
    ((∀ r ∈ searchRows "A" 10 stCase, likeContains "A" r.payload = true) ∧
     (searchRows "A" 10 stCase).length ≤ (10 : Int).toNat ∧
     List.Sorted rowGE (searchRows "A" 10 stCase) ∧
     ((∀ r ∈ stCase.index, likeContains "A" r.payload = false) →
       searchRows "A" 10 stCase = []) ∧
     (noWildcards "A" = true →
       ∀ s : String, likeContains "A" s = ciContains s "A") ∧
     search "A" 10 stCase = (searchRows "A" 10 stCase).map decodeRow) :=
  ⟨by decide, search_like_amended stCase "A" 10 (by decide)⟩

def payloadAB : JValue :=
  .jobj (.cons "a" (.jint 1)
    (.cons "b" (.jarr (.cons (.jint 1) (.cons (.jint 2)
      (.cons (.jint 3) .nil)))) .nil))

/-- C8: starting from a fresh store, ingesting the payload with keys a
and b from source test and then searching for "a" returns exactly one
row, and the persisted payload text of that row decodes back to the
ingested payload. -/
theorem search_round_trip :
    search "a" 10 (append 7 "test" payloadAB emptyState) =
      [{ ts := 7, sha := fingerprint payloadAB, source := "test",
         payload := some payloadAB }] := by
  decide
